import Mathlib

/-!
# Verification of the Visual-dialog text pagination and reveal engine

Shallow embedding of `visualdialog/dialog.py` (class `DialogBox` with its
`char_by_char` and `word_by_word` display methods and the
`_display_end_indicator` helper).  The two display methods are modelled as
pure trace generators: every effect the Python code performs on the curses
window (`framing_box`, `win.clear`, `win.addstr`, `win.refresh`,
`time.sleep`, the per-unit callback, `getkey`) becomes an `Event` in an
output list, in program order.  `word_by_word` can raise `TypeError` when a
scalar attribute is unpacked, so it returns `Except String (List Event)`.

Parts of the repository that `dialog.py` uses but that are not present under
the sources given (`box.py` with `BaseTextBox` and `utils.py` with
`TextAttributes` and `_make_chunk`, plus the stdlib `textwrap` wrapping) are
modelled from the specification; each such definition carries a doc comment
saying so.
-/

/-- A curses text attribute value.  The Python code treats attributes as
opaque integers; the only operation it performs is `curses.color_pair(n)`,
which we keep as a separate constructor so that theorems can speak about
"the colour selected by the colour index" as distinct from plain attribute
constants. -/
inductive Attr where
  | const (a : Int)
  | colorPair (n : Nat)
deriving DecidableEq, Repr

/-- `curses.A_BOLD` (ncurses value `1 << 21`). -/
def A_BOLD : Attr := .const 2097152

/-- `curses.A_BLINK` (ncurses value `1 << 19`). -/
def A_BLINK : Attr := .const 524288

/-- A Python value that is either a single bare attribute (an `int`) or a
tuple of attributes, as accepted by the `text_attr` parameter and by the
values of the `words_attr` dictionary. -/
inductive AttrVal where
  | scalar (a : Attr)
  | tuple (l : List Attr)
deriving DecidableEq, Repr

/-- `(v,)`-style normalization: view an `AttrVal` as the list of attributes
it denotes.  This is what the Python `isinstance(x, int)` tests in
`char_by_char` achieve before the value is used. -/
def AttrVal.toList : AttrVal → List Attr
  | .scalar a => [a]
  | .tuple l => l

/-- Python tuple unpacking `(*x)` of an `AttrVal`: a tuple unpacks to its
elements, a bare `int` raises `TypeError`. -/
def pyUnpack : AttrVal → Except String (List Attr)
  | .scalar _ => .error "TypeError: Value after * must be an iterable, not int"
  | .tuple l => .ok l

/-- One observable effect of a display method on the terminal, in program
order.  `sleep d (some (lo, hi))` is `time.sleep(d + random.uniform(lo, hi))`;
`sleep d none` is the flat `time.sleep(d)`. -/
inductive Event where
  | frameBox
  | flash
  | clear
  | attrOn (a : Attr)
  | attrOff (a : Attr)
  | addstr (y x : Int) (s : String)
  | addch (y x : Int) (s : String)
  | refresh
  | sleep (base : ℚ) (jitter : Option (ℚ × ℚ))
  | callback
  | getkey
deriving DecidableEq, Repr

/-- `utils.TextAttributes` used as a context manager.
Modelled from the spec: `utils.py` is not among the given sources; §6 of the
spec requires style application to be scoped — apply each attribute, perform
the writes, then revert each attribute. -/
def withAttrs (attrs : List Attr) (body : List Event) : List Event :=
  attrs.map Event.attrOn ++ body ++ attrs.map Event.attrOff

/-- The state of a `DialogBox` when a display method is called.
`pos_x`, `pos_y`, `height`, `width`, `title`, `downtime_chars`,
`downtime_chars_delay` and `end_indicator_char` are set by
`DialogBox.__init__`.  The fields `text_pos_x`, `text_pos_y`,
`nb_char_max_line` and `nb_lines_max` are modelled from the spec: they come
from `BaseTextBox` (`box.py`, not among the given sources), which per §3
derives a usable text area from the geometry; we take them as given
immutable data. -/
structure DialogBox where
  pos_x : Int
  pos_y : Int
  height : Int
  width : Int
  title : String
  text_pos_x : Int
  text_pos_y : Int
  nb_char_max_line : Nat
  nb_lines_max : Nat
  downtime_chars : List Char
  downtime_chars_delay : ℚ
  end_indicator_char : String
deriving DecidableEq, Repr

/-- `self.end_indicator_pos_x = self.pos_x + self.height - 2`. -/
def DialogBox.end_indicator_pos_x (b : DialogBox) : Int :=
  b.pos_x + b.height - 2

/-- `self.end_indicator_pos_y`: `pos_y + width + 1` when a title is set,
else `pos_y + width - 1`. -/
def DialogBox.end_indicator_pos_y (b : DialogBox) : Int :=
  if b.title ≠ "" then b.pos_y + b.width + 1 else b.pos_y + b.width - 1

/-- `DialogBox.__exit__(self, type, value, traceback)`: the body is a bare
`...` (Ellipsis).  It performs no writes, leaves the box unchanged, and
returns `None` (falsy: exceptions are not suppressed).  We model it as
returning the unchanged box, the empty event trace, and `false` for
"suppress the exception". -/
def DialogBox.exit (b : DialogBox) (_ty _val _tb : Option String) :
    DialogBox × List Event × Bool :=
  (b, [], false)

/-- `_display_end_indicator(self, win, text_attr=(A_BOLD, A_BLINK))`:
if `self.end_indicator_char` is truthy (a non-empty string), write it with
the given attributes at the end-indicator position; otherwise do nothing. -/
def displayEndIndicator (b : DialogBox) (text_attr : List Attr) : List Event :=
  if b.end_indicator_char ≠ "" then
    withAttrs text_attr
      [Event.addch b.end_indicator_pos_y b.end_indicator_pos_x b.end_indicator_char]
  else []

/-! ## Splitting and pagination -/

theorem length_dropWhile_le' {α : Type} (p : α → Bool) (l : List α) :
    (l.dropWhile p).length ≤ l.length := by
  induction l with
  | nil => simp [List.dropWhile]
  | cons c cs ih =>
    by_cases h : p c
    · simpa [List.dropWhile, h] using Nat.le_trans ih (Nat.le_succ _)
    · simp [List.dropWhile, h]

/-- Fuel-based worker for `splitWs` (structural recursion on the fuel so
that concrete inputs evaluate by kernel reduction; fuel `l.length`
suffices). -/
def splitWsAux : Nat → List Char → List (List Char)
  | 0, _ => []
  | _, [] => []
  | fuel + 1, c :: cs =>
    if c.isWhitespace then splitWsAux fuel cs
    else (c :: cs.takeWhile (fun d => ¬ d.isWhitespace)) ::
      splitWsAux fuel (cs.dropWhile (fun d => ¬ d.isWhitespace))

/-- Python `str.split()` (no separator) on a list of characters: split on
runs of whitespace, dropping empty pieces. -/
def splitWs (l : List Char) : List (List Char) :=
  splitWsAux l.length l

theorem splitWsAux_fuel (fuel fuel' : Nat) (l : List Char)
    (h : l.length ≤ fuel) (h' : l.length ≤ fuel') :
    splitWsAux fuel l = splitWsAux fuel' l := by
  induction fuel generalizing fuel' l with
  | zero =>
    match l, h with
    | [], _ => cases fuel' <;> rfl
  | succ n ih =>
    match l, fuel' with
    | [], f' => cases f' <;> rfl
    | c :: cs, 0 => simp at h'
    | c :: cs, f' + 1 =>
      simp only [splitWsAux]
      by_cases hc : c.isWhitespace = true
      · rw [if_pos hc, if_pos hc]
        exact ih _ cs (by simpa using Nat.le_of_succ_le_succ h)
          (by simpa using Nat.le_of_succ_le_succ h')
      · rw [if_neg hc, if_neg hc]
        have hd := length_dropWhile_le' (fun d => ¬ d.isWhitespace) cs
        have hl : cs.length ≤ n := by simpa using Nat.le_of_succ_le_succ h
        have hl' : cs.length ≤ f' := by simpa using Nat.le_of_succ_le_succ h'
        rw [ih _ _ (Nat.le_trans hd hl) (Nat.le_trans hd hl')]

theorem splitWs_nil : splitWs [] = [] := rfl

theorem splitWs_cons_ws (c : Char) (cs : List Char) (h : c.isWhitespace = true) :
    splitWs (c :: cs) = splitWs cs := by
  show splitWsAux (cs.length + 1) (c :: cs) = splitWs cs
  simp only [splitWsAux]
  rw [if_pos h]
  rfl

theorem splitWs_cons_not_ws (c : Char) (cs : List Char)
    (h : ¬ c.isWhitespace = true) :
    splitWs (c :: cs) =
      (c :: cs.takeWhile (fun d => ¬ d.isWhitespace)) ::
        splitWs (cs.dropWhile (fun d => ¬ d.isWhitespace)) := by
  show splitWsAux (cs.length + 1) (c :: cs) = _
  simp only [splitWsAux]
  rw [if_neg h]
  have hd := length_dropWhile_le' (fun d => ¬ d.isWhitespace) cs
  congr 1
  exact splitWsAux_fuel _ _ _ hd (Nat.le_refl _)

/-- `line.split()` as used by `char_by_char`. -/
def pySplit (s : String) : List String :=
  (splitWs s.data).map (fun cs => String.mk cs)

/-- Fuel-based worker for `pySplitOn` (fuel `l.length` suffices for a
non-empty separator): scan for the leftmost occurrence of `sep`,
accumulating the current piece in reverse. -/
def splitOnAuxC (sep : List Char) : Nat → List Char → List Char → List (List Char)
  | _, acc, [] => [acc.reverse]
  | 0, acc, l => [acc.reverse ++ l]
  | fuel + 1, acc, c :: cs =>
    if sep.isPrefixOf (c :: cs) then
      acc.reverse :: splitOnAuxC sep fuel [] ((c :: cs).drop sep.length)
    else
      splitOnAuxC sep fuel (c :: acc) cs

/-- Python `line.split(sep)` with an explicit separator, as used by
`word_by_word` with `cut_char` (default `" "`): split at each
non-overlapping occurrence of `sep`, keeping empty pieces
(`"".split(" ") = [""]`, `"a  b".split(" ") = ["a", "", "b"]`).  Python
raises `ValueError` for an empty separator; the display methods are only
ever called with a non-empty `cut_char`, and the model is used only under
that assumption. -/
def pySplitOn (sep : String) (s : String) : List String :=
  (splitOnAuxC sep.data s.data.length [] s.data).map (fun cs => String.mk cs)

/-- Modelled from the spec: the wrapping done by
`textwrap.TextWrapper(width=self.nb_char_max_line).wrap(text)` (the stdlib
wrapper configured in `DialogBox.__init__`).  Spec §4.1: wrap the text into
lines no wider than the usable width, breaking on whitespace boundaries by
standard greedy word wrap; wholly-whitespace input produces no lines. -/
def greedyWrapAux (width : Nat) (cur : String) : List String → List String
  | [] => [cur]
  | w :: ws =>
    if cur.length + 1 + w.length ≤ width then
      greedyWrapAux width (cur ++ " " ++ w) ws
    else
      cur :: greedyWrapAux width w ws

/-- Modelled from the spec: see `greedyWrapAux`.  Empty or all-whitespace
text wraps to no lines at all. -/
def wrapText (width : Nat) (text : String) : List String :=
  match pySplit text with
  | [] => []
  | w :: ws => greedyWrapAux width w ws

/-- Chunking of a list into consecutive groups of at most `n` elements
(fuel-based recursion; the fuel `l.length` suffices whenever `n ≥ 1`). -/
def chunksAux (n : Nat) : Nat → List String → List (List String)
  | 0, _ => []
  | _, [] => []
  | fuel + 1, l => l.take n :: chunksAux n fuel (l.drop n)

/-- Modelled from the spec: `_make_chunk(wrapped_text, self.nb_lines_max)`
from `utils.py` (not among the given sources).  Spec §4.1: group the wrapped
lines into pages of at most `nb_lines_max` lines each, preserving order, the
last page possibly shorter; edge case: empty text (no wrapped lines) yields
a single empty page. -/
def makeChunk (lines : List String) (n : Nat) : List (List String) :=
  if lines.isEmpty then [[]] else chunksAux n lines.length lines

/-- The pagination pipeline shared by both display methods:
`wrapped_text = self.text_wrapper.wrap(text)` followed by
`wrapped_text = _make_chunk(wrapped_text, self.nb_lines_max)`. -/
def paginate (b : DialogBox) (text : String) : List (List String) :=
  makeChunk (wrapText b.nb_char_max_line text) b.nb_lines_max

/-! ## Style resolution -/

/-- First-match lookup in the `words_attr` dictionary (Python dict keys are
unique; an association list with first-match lookup models it). -/
def lookupTable (table : List (String × AttrVal)) (w : String) : Option AttrVal :=
  match table with
  | [] => none
  | (k, v) :: rest => if k = w then some v else lookupTable rest w

/-- The attribute resolution performed per word by `char_by_char`
(lines 221–231): if the word is a key of `words_attr`, its value, normalized
to a tuple when it is a bare `int`; otherwise
`(curses.color_pair(colors_pair_nb), *text_attr)` with `text_attr`
normalized to a tuple when it is a bare `int`. -/
def resolveCharAttr (table : List (String × AttrVal)) (text_attr : AttrVal)
    (colors_pair_nb : Nat) (w : String) : List Attr :=
  match lookupTable table w with
  | some v => v.toList
  | none => Attr.colorPair colors_pair_nb :: text_attr.toList

/-- The attribute resolution performed per word by `word_by_word`
(lines 364–374).  In the override branch the code normalizes `text_attr`
instead of `attr` (lines 367–369), so a bare-`int` override value reaches
`TextAttributes(win, *attr)` unnormalized and the unpacking raises
`TypeError`.  In the other branch `text_attr` is normalized before use, so
that branch never raises. -/
def resolveWordAttr (table : List (String × AttrVal)) (text_attr : AttrVal)
    (colors_pair_nb : Nat) (w : String) : Except String (List Attr) :=
  match lookupTable table w with
  | some v => pyUnpack v
  | none => .ok (Attr.colorPair colors_pair_nb :: text_attr.toList)

/-! ## `char_by_char` trace -/

/-- The inner character loop of `char_by_char` (lines 234–247), with the
`enumerate` index `x` as an explicit counter: for each character of the
word, `win.addstr`, `win.refresh`, the downtime-or-base delay plus jitter,
then the callback. -/
def charCharsLoop (b : DialogBox) (delay : ℚ) (rd : ℚ × ℚ) (y : Nat)
    (off : Nat) : List Char → Nat → List Event
  | [], _ => []
  | c :: cs, x =>
    [Event.addstr (b.text_pos_y + y) (b.text_pos_x + x + off)
       (String.singleton c),
     Event.refresh,
     Event.sleep (if c ∈ b.downtime_chars then b.downtime_chars_delay else delay)
       (some rd),
     Event.callback]
    ++ charCharsLoop b delay rd y off cs (x + 1)

/-- The events of one word in `char_by_char`: all of its characters revealed
in order starting at enumerate index 0. -/
def charRevealEvents (b : DialogBox) (delay : ℚ) (rd : ℚ × ℚ) (y : Nat)
    (off : Nat) (w : String) : List Event :=
  charCharsLoop b delay rd y off w.data 0

/-- The word loop of one line in `char_by_char` (lines 219–253): resolve the
word's attributes, write its characters under the scoped attributes followed
by the flat inter-word `time.sleep(delay)`, then advance the running offset
by `len(word) + 1`. -/
def charWordLoop (b : DialogBox) (table : List (String × AttrVal))
    (text_attr : AttrVal) (nb : Nat) (delay : ℚ) (rd : ℚ × ℚ) (y : Nat) :
    List String → Nat → List Event
  | [], _ => []
  | w :: ws, off =>
    withAttrs (resolveCharAttr table text_attr nb w)
      (charRevealEvents b delay rd y off w ++ [Event.sleep delay none])
    ++ charWordLoop b table text_attr nb delay rd y ws (off + w.length + 1)

/-- The line loop of `char_by_char` (lines 218–253), with the `enumerate`
index `y` as an explicit counter: each line is split into words and revealed
with the running offset restarting at 0. -/
def charLinesLoop (b : DialogBox) (table : List (String × AttrVal))
    (text_attr : AttrVal) (nb : Nat) (delay : ℚ) (rd : ℚ × ℚ) :
    List String → Nat → List Event
  | [], _ => []
  | line :: rest, y =>
    charWordLoop b table text_attr nb delay rd y (pySplit line) 0
    ++ charLinesLoop b table text_attr nb delay rd rest (y + 1)

/-- One page of `char_by_char` (lines 214–256): clear, re-frame, reveal each
line word by word, draw the end indicator, wait for the confirm key. -/
def charPageEvents (b : DialogBox) (table : List (String × AttrVal))
    (text_attr : AttrVal) (nb : Nat) (delay : ℚ) (rd : ℚ × ℚ)
    (page : List String) : List Event :=
  [Event.clear, Event.frameBox]
  ++ charLinesLoop b table text_attr nb delay rd page 0
  ++ displayEndIndicator b [A_BOLD, A_BLINK]
  ++ [Event.getkey]

/-- `DialogBox.char_by_char` as a trace generator (lines 206–256):
`framing_box`, optional `curses.flash()`, then wrap and chunk the text and
display each page. -/
def charByChar (b : DialogBox) (text : String) (nb : Nat) (text_attr : AttrVal)
    (table : List (String × AttrVal)) (flash : Bool) (delay : ℚ)
    (rd : ℚ × ℚ) : List Event :=
  [Event.frameBox]
  ++ (if flash then [Event.flash] else [])
  ++ (paginate b text).flatMap (charPageEvents b table text_attr nb delay rd)

/-! ## `word_by_word` trace -/

/-- The word loop of one line in `word_by_word` (lines 362–384): resolve the
word's attributes (possibly raising `TypeError` on a bare-`int` override
value), write the whole word at the running offset under scoped attributes,
refresh, advance the offset by `len(word) + 1`, then sleep the base delay
plus jitter. -/
def wordWordLoop (b : DialogBox) (table : List (String × AttrVal))
    (text_attr : AttrVal) (nb : Nat) (delay : ℚ) (rd : ℚ × ℚ) (y : Nat) :
    List String → Nat → Except String (List Event)
  | [], _ => .ok []
  | w :: ws, off => do
    let attrs ← resolveWordAttr table text_attr nb w
    let rest ← wordWordLoop b table text_attr nb delay rd y ws (off + w.length + 1)
    .ok (withAttrs attrs
           [Event.addstr (b.text_pos_y + y) (b.text_pos_x + off) w, Event.refresh]
         ++ [Event.sleep delay (some rd)]
         ++ rest)

/-- The line loop of `word_by_word` (lines 361–386), with the `enumerate`
index `y` as an explicit counter.  The per-line callback is fired after the
line's word loop: line 386 sits in the line loop, outside the word loop. -/
def wordLinesLoop (b : DialogBox) (table : List (String × AttrVal))
    (text_attr : AttrVal) (nb : Nat) (cut_char : String) (delay : ℚ)
    (rd : ℚ × ℚ) : List String → Nat → Except String (List Event)
  | [], _ => .ok []
  | line :: rest, y => do
    let es ← wordWordLoop b table text_attr nb delay rd y
      (pySplitOn cut_char line) 0
    let more ← wordLinesLoop b table text_attr nb cut_char delay rd rest (y + 1)
    return es ++ [Event.callback] ++ more

/-- One page of `word_by_word` (lines 358–389): clear, re-frame, reveal each
line word by word, draw the end indicator, wait for the confirm key. -/
def wordPageEvents (b : DialogBox) (table : List (String × AttrVal))
    (text_attr : AttrVal) (nb : Nat) (cut_char : String) (delay : ℚ)
    (rd : ℚ × ℚ) (page : List String) : Except String (List Event) := do
  let body ← wordLinesLoop b table text_attr nb cut_char delay rd page 0
  return [Event.clear, Event.frameBox]
    ++ body
    ++ displayEndIndicator b [A_BOLD, A_BLINK]
    ++ [Event.getkey]

/-- The page loop of `word_by_word` (line 358). -/
def wordPagesLoop (b : DialogBox) (table : List (String × AttrVal))
    (text_attr : AttrVal) (nb : Nat) (cut_char : String) (delay : ℚ)
    (rd : ℚ × ℚ) : List (List String) → Except String (List Event)
  | [] => .ok []
  | page :: rest => do
    let es ← wordPageEvents b table text_attr nb cut_char delay rd page
    let more ← wordPagesLoop b table text_attr nb cut_char delay rd rest
    return es ++ more

/-- `DialogBox.word_by_word` as a trace generator (lines 348–389):
`framing_box`, optional flash, then line 353 evaluates
`(curses.color_pair(colors_pair_nb), *text_attr)` — raising `TypeError` when
`text_attr` is a bare `int` — before the text is wrapped, chunked, and each
page displayed. -/
def wordByWord (b : DialogBox) (text : String) (nb : Nat) (cut_char : String)
    (text_attr : AttrVal) (table : List (String × AttrVal)) (flash : Bool)
    (delay : ℚ) (rd : ℚ × ℚ) : Except String (List Event) := do
  let _ ← pyUnpack text_attr
  let body ← wordPagesLoop b table text_attr nb cut_char delay rd
    (paginate b text)
  return [Event.frameBox]
    ++ (if flash then [Event.flash] else [])
    ++ body

/-! ## Trace projections

Claims about counts, ordering and positions are phrased through projections
of the event trace: `filterMap`-style extractions of the writes, the
callbacks and the sleeps. -/

/-- Writes-and-callbacks projection function: an `addstr` becomes
`some (row, col, text)`, a callback becomes `none`, every other event is
dropped. -/
def wcP : Event → Option (Option (Int × Int × String))
  | .addstr y x s => some (some (y, x, s))
  | .callback => some none
  | _ => none

/-- Writes-and-callbacks subsequence of a trace. -/
def wcProj (es : List Event) : List (Option (Int × Int × String)) :=
  es.filterMap wcP

/-- Projection keeping only `addstr` writes, as `(row, col, text)`. -/
def writeP : Event → Option (Int × Int × String)
  | .addstr y x s => some (y, x, s)
  | _ => none

/-- The `addstr` writes of a trace, in order. -/
def writesProj (es : List Event) : List (Int × Int × String) :=
  es.filterMap writeP

/-- Projection keeping only sleeps, as `(base, jitter range)`. -/
def sleepP : Event → Option (ℚ × Option (ℚ × ℚ))
  | .sleep d j => some (d, j)
  | _ => none

/-- The sleeps of a trace, in order. -/
def sleepsProj (es : List Event) : List (ℚ × Option (ℚ × ℚ)) :=
  es.filterMap sleepP

/-- Recognizer for the confirm-gate event. -/
def isGetkey : Event → Bool
  | .getkey => true
  | _ => false

/-- Recognizer for the callback event. -/
def isCallback : Event → Bool
  | .callback => true
  | _ => false

/-- The number of events of a trace satisfying `p`. -/
def countEvt (p : Event → Bool) (es : List Event) : Nat :=
  (es.filter p).length

theorem filterMap_of_forall_none {α : Type} (f : Event → Option α)
    (l : List Event) (h : ∀ e ∈ l, f e = none) : l.filterMap f = [] := by
  induction l with
  | nil => rfl
  | cons e es ih =>
    rw [List.filterMap_cons, h e (List.mem_cons_self e es)]
    exact ih (fun e' he' => h e' (List.mem_cons_of_mem e he'))

theorem filterMap_withAttrs {α : Type} (f : Event → Option α)
    (hOn : ∀ a, f (.attrOn a) = none) (hOff : ∀ a, f (.attrOff a) = none)
    (attrs : List Attr) (body : List Event) :
    (withAttrs attrs body).filterMap f = body.filterMap f := by
  unfold withAttrs
  rw [List.filterMap_append, List.filterMap_append]
  rw [filterMap_of_forall_none f (attrs.map Event.attrOn)
    (by intro e he; obtain ⟨a, _, rfl⟩ := List.mem_map.1 he; exact hOn a)]
  rw [filterMap_of_forall_none f (attrs.map Event.attrOff)
    (by intro e he; obtain ⟨a, _, rfl⟩ := List.mem_map.1 he; exact hOff a)]
  simp

theorem filter_withAttrs (p : Event → Bool)
    (hOn : ∀ a, p (.attrOn a) = false) (hOff : ∀ a, p (.attrOff a) = false)
    (attrs : List Attr) (body : List Event) :
    (withAttrs attrs body).filter p = body.filter p := by
  unfold withAttrs
  rw [List.filter_append, List.filter_append]
  have h1 : (attrs.map Event.attrOn).filter p = [] := by
    rw [List.filter_eq_nil_iff]
    intro e he; obtain ⟨a, _, rfl⟩ := List.mem_map.1 he; simp [hOn a]
  have h2 : (attrs.map Event.attrOff).filter p = [] := by
    rw [List.filter_eq_nil_iff]
    intro e he; obtain ⟨a, _, rfl⟩ := List.mem_map.1 he; simp [hOff a]
  simp [h1, h2]

theorem wcProj_withAttrs (attrs : List Attr) (body : List Event) :
    wcProj (withAttrs attrs body) = wcProj body :=
  filterMap_withAttrs wcP (fun _ => rfl) (fun _ => rfl) attrs body

theorem writesProj_withAttrs (attrs : List Attr) (body : List Event) :
    writesProj (withAttrs attrs body) = writesProj body :=
  filterMap_withAttrs writeP (fun _ => rfl) (fun _ => rfl) attrs body

theorem sleepsProj_withAttrs (attrs : List Attr) (body : List Event) :
    sleepsProj (withAttrs attrs body) = sleepsProj body :=
  filterMap_withAttrs sleepP (fun _ => rfl) (fun _ => rfl) attrs body

theorem wcProj_append (a b : List Event) :
    wcProj (a ++ b) = wcProj a ++ wcProj b :=
  List.filterMap_append a b wcP

theorem writesProj_append (a b : List Event) :
    writesProj (a ++ b) = writesProj a ++ writesProj b :=
  List.filterMap_append a b writeP

theorem sleepsProj_append (a b : List Event) :
    sleepsProj (a ++ b) = sleepsProj a ++ sleepsProj b :=
  List.filterMap_append a b sleepP

theorem countEvt_append (p : Event → Bool) (a b : List Event) :
    countEvt p (a ++ b) = countEvt p a + countEvt p b := by
  simp [countEvt, List.filter_append]

theorem wcProj_endIndicator (b : DialogBox) (attrs : List Attr) :
    wcProj (displayEndIndicator b attrs) = [] := by
  unfold displayEndIndicator
  by_cases h : b.end_indicator_char ≠ ""
  · rw [if_pos h, wcProj_withAttrs]; rfl
  · rw [if_neg h]; rfl

theorem writesProj_endIndicator (b : DialogBox) (attrs : List Attr) :
    writesProj (displayEndIndicator b attrs) = [] := by
  unfold displayEndIndicator
  by_cases h : b.end_indicator_char ≠ ""
  · rw [if_pos h, writesProj_withAttrs]; rfl
  · rw [if_neg h]; rfl

theorem countEvt_getkey_endIndicator (b : DialogBox) (attrs : List Attr) :
    countEvt isGetkey (displayEndIndicator b attrs) = 0 := by
  unfold displayEndIndicator
  by_cases h : b.end_indicator_char ≠ ""
  · rw [if_pos h]
    rw [show countEvt isGetkey (withAttrs attrs
      [Event.addch b.end_indicator_pos_y b.end_indicator_pos_x b.end_indicator_char])
      = _ from congrArg List.length
        (filter_withAttrs isGetkey (fun _ => rfl) (fun _ => rfl) attrs _)]
    rfl
  · rw [if_neg h]; rfl

/-! ## Expected write sequences (specification side)

These describe, directly from the pages produced by the paginator, where
each unit must be written: the claims' offset formula
`text_pos_x + Σ_{i<k} (len(word_i) + 1)` appears as `wordOffset`. -/

/-- `Σ_{i<k} (len(word_i) + 1)`: the running horizontal offset in front of
the `k`-th word of a line. -/
def wordOffset (words : List String) (k : Nat) : Nat :=
  ((words.take k).map (fun w => w.length + 1)).sum

/-- Expected per-character writes of one word in CHAR granularity, with the
character index counting from `x`. -/
def charWrites (b : DialogBox) (y off : Nat) : List Char → Nat → List (Int × Int × String)
  | [], _ => []
  | c :: cs, x =>
    (b.text_pos_y + y, b.text_pos_x + x + off, String.singleton c)
      :: charWrites b y off cs (x + 1)

/-- Expected writes of one line in CHAR granularity, accumulating the
running offset. -/
def lineCharWrites (b : DialogBox) (y : Nat) : List String → Nat → List (Int × Int × String)
  | [], _ => []
  | w :: ws, off =>
    charWrites b y off w.data 0 ++ lineCharWrites b y ws (off + w.length + 1)

/-- Expected writes of a page in CHAR granularity, the line index counting
from `y`. -/
def pageCharWrites (b : DialogBox) : List String → Nat → List (Int × Int × String)
  | [], _ => []
  | line :: rest, y =>
    lineCharWrites b y (pySplit line) 0 ++ pageCharWrites b rest (y + 1)

/-- Expected writes of a whole CHAR-granularity display, page by page. -/
def expectedCharWrites (b : DialogBox) (pages : List (List String)) :
    List (Int × Int × String) :=
  pages.flatMap (fun page => pageCharWrites b page 0)

/-- Expected writes of one line in WORD granularity: one write per word at
the running offset. -/
def lineWordWrites (b : DialogBox) (y : Nat) : List String → Nat → List (Int × Int × String)
  | [], _ => []
  | w :: ws, off =>
    (b.text_pos_y + y, b.text_pos_x + off, w) :: lineWordWrites b y ws (off + w.length + 1)

/-! ## CHAR-granularity projection lemmas -/

theorem wcProj_charCharsLoop (b : DialogBox) (d : ℚ) (rd : ℚ × ℚ)
    (y off : Nat) (chars : List Char) (x : Nat) :
    wcProj (charCharsLoop b d rd y off chars x)
      = (charWrites b y off chars x).flatMap (fun p => [some p, none]) := by
  induction chars generalizing x with
  | nil => rfl
  | cons c cs ih =>
    simp only [charCharsLoop]
    rw [wcProj_append, ih]
    rfl

theorem wcProj_charWordLoop (b : DialogBox) (table : List (String × AttrVal))
    (ta : AttrVal) (nb : Nat) (d : ℚ) (rd : ℚ × ℚ) (y : Nat)
    (words : List String) (off : Nat) :
    wcProj (charWordLoop b table ta nb d rd y words off)
      = (lineCharWrites b y words off).flatMap (fun p => [some p, none]) := by
  induction words generalizing off with
  | nil => rfl
  | cons w ws ih =>
    simp only [charWordLoop, lineCharWrites, List.flatMap_append]
    rw [wcProj_append, wcProj_withAttrs, wcProj_append, ih]
    rw [show wcProj [Event.sleep d none] = [] from rfl]
    rw [charRevealEvents, wcProj_charCharsLoop]
    simp

theorem wcProj_charLinesLoop (b : DialogBox) (table : List (String × AttrVal))
    (ta : AttrVal) (nb : Nat) (d : ℚ) (rd : ℚ × ℚ) (lines : List String)
    (y : Nat) :
    wcProj (charLinesLoop b table ta nb d rd lines y)
      = (pageCharWrites b lines y).flatMap (fun p => [some p, none]) := by
  induction lines generalizing y with
  | nil => rfl
  | cons line rest ih =>
    simp only [charLinesLoop, pageCharWrites, List.flatMap_append]
    rw [wcProj_append, ih, wcProj_charWordLoop]

theorem wcProj_charPageEvents (b : DialogBox) (table : List (String × AttrVal))
    (ta : AttrVal) (nb : Nat) (d : ℚ) (rd : ℚ × ℚ) (page : List String) :
    wcProj (charPageEvents b table ta nb d rd page)
      = (pageCharWrites b page 0).flatMap (fun p => [some p, none]) := by
  unfold charPageEvents
  rw [wcProj_append, wcProj_append, wcProj_append]
  rw [wcProj_endIndicator, wcProj_charLinesLoop]
  rw [show wcProj [Event.clear, Event.frameBox] = [] from rfl,
    show wcProj [Event.getkey] = [] from rfl]
  simp

theorem wcProj_charByChar (b : DialogBox) (text : String) (nb : Nat)
    (ta : AttrVal) (table : List (String × AttrVal)) (flash : Bool)
    (d : ℚ) (rd : ℚ × ℚ) :
    wcProj (charByChar b text nb ta table flash d rd)
      = (expectedCharWrites b (paginate b text)).flatMap (fun p => [some p, none]) := by
  unfold charByChar expectedCharWrites
  rw [wcProj_append, wcProj_append]
  rw [show wcProj [Event.frameBox] = [] from rfl]
  have hflash : wcProj (if flash then [Event.flash] else []) = [] := by
    cases flash <;> rfl
  rw [hflash]
  have hpages : ∀ pages : List (List String),
      wcProj (pages.flatMap (charPageEvents b table ta nb d rd))
        = (pages.flatMap (fun page => pageCharWrites b page 0)).flatMap
            (fun p => [some p, none]) := by
    intro pages
    induction pages with
    | nil => rfl
    | cons page rest ih =>
      simp only [List.flatMap_cons, List.flatMap_append]
      rw [wcProj_append, ih, wcProj_charPageEvents]
  rw [hpages]
  simp

/-! ## Coverage: the characters written are exactly the non-space characters -/

theorem flatten_splitWs_aux : ∀ (n : Nat) (l : List Char), l.length ≤ n →
    (splitWs l).flatten = l.filter (fun c => ¬ c.isWhitespace) := by
  intro n
  induction n with
  | zero =>
    intro l h
    match l, h with
    | [], _ => rfl
  | succ n ih =>
    intro l h
    match l with
    | [] => rfl
    | c :: cs =>
      by_cases hc : c.isWhitespace = true
      · rw [splitWs_cons_ws c cs hc,
          ih cs (by simpa using Nat.le_of_succ_le_succ h)]
        simp [List.filter_cons, hc]
      · rw [splitWs_cons_not_ws c cs hc]
        simp only [List.flatten_cons]
        have hd := length_dropWhile_le' (fun d => ¬ d.isWhitespace) cs
        rw [ih _ (Nat.le_trans hd (by simpa using Nat.le_of_succ_le_succ h))]
        have hfc : List.filter (fun c => ¬ c.isWhitespace) (c :: cs)
            = c :: List.filter (fun c => ¬ c.isWhitespace) cs := by
          simp [List.filter_cons, hc]
        rw [hfc]
        have h1 : List.filter (fun c => ¬ c.isWhitespace)
              (List.takeWhile (fun d => ¬ d.isWhitespace) cs)
            = List.takeWhile (fun d => ¬ d.isWhitespace) cs := by
          apply List.filter_eq_self.2
          intro a ha
          simpa using List.mem_takeWhile_imp ha
        rw [show List.filter (fun c => ¬ c.isWhitespace) cs
            = List.filter (fun c => ¬ c.isWhitespace)
                (List.takeWhile (fun d => ¬ d.isWhitespace) cs
                  ++ List.dropWhile (fun d => ¬ d.isWhitespace) cs) from by
          rw [List.takeWhile_append_dropWhile]]
        rw [List.filter_append, h1]
        simp

theorem flatten_splitWs (l : List Char) :
    (splitWs l).flatten = l.filter (fun c => ¬ c.isWhitespace) :=
  flatten_splitWs_aux l.length l (Nat.le_refl _)

theorem map_text_charWrites (b : DialogBox) (y off : Nat) (chars : List Char)
    (x : Nat) :
    (charWrites b y off chars x).map (fun p => p.2.2)
      = chars.map String.singleton := by
  induction chars generalizing x with
  | nil => rfl
  | cons c cs ih => simp only [charWrites, List.map_cons, ih]

theorem map_text_lineCharWrites (b : DialogBox) (y : Nat) (words : List String)
    (off : Nat) :
    (lineCharWrites b y words off).map (fun p => p.2.2)
      = (words.flatMap String.data).map String.singleton := by
  induction words generalizing off with
  | nil => rfl
  | cons w ws ih =>
    simp only [lineCharWrites, List.flatMap_cons, List.map_append, ih,
      map_text_charWrites]

theorem pySplit_flatMap_data (line : String) :
    (pySplit line).flatMap String.data
      = line.data.filter (fun c => ¬ c.isWhitespace) := by
  unfold pySplit
  rw [List.flatMap_map]
  have hfl : ((splitWs line.data).flatMap fun a => (String.mk a).data)
      = (splitWs line.data).flatten := by
    rw [List.flatten_eq_flatMap]
    rfl
  rw [hfl]
  exact flatten_splitWs line.data

theorem map_text_pageCharWrites (b : DialogBox) (page : List String) (y : Nat) :
    (pageCharWrites b page y).map (fun p => p.2.2)
      = page.flatMap (fun line =>
          (line.data.filter (fun c => ¬ c.isWhitespace)).map String.singleton) := by
  induction page generalizing y with
  | nil => rfl
  | cons line rest ih =>
    simp only [pageCharWrites, List.flatMap_cons, List.map_append, ih,
      map_text_lineCharWrites, pySplit_flatMap_data]

theorem map_text_expectedCharWrites (b : DialogBox) (pages : List (List String)) :
    (expectedCharWrites b pages).map (fun p => p.2.2)
      = pages.flatMap (fun page => page.flatMap (fun line =>
          (line.data.filter (fun c => ¬ c.isWhitespace)).map String.singleton)) := by
  induction pages with
  | nil => rfl
  | cons page rest ih =>
    simp only [expectedCharWrites, List.flatMap_cons, List.map_append] at ih ⊢
    rw [ih, map_text_pageCharWrites]

/-! ## WORD granularity: resolved traces -/

/-- Resolution of every word of a line, left to right, stopping at the
first `TypeError`. -/
def resolveAll (table : List (String × AttrVal)) (ta : AttrVal) (nb : Nat) :
    List String → Except String (List (List Attr))
  | [] => .ok []
  | w :: ws => do
    let a ← resolveWordAttr table ta nb w
    let as ← resolveAll table ta nb ws
    return a :: as

/-- The trace of one line of `word_by_word` once every word's attributes
have resolved successfully, each word paired with its attributes. -/
def wordTraceRes (b : DialogBox) (d : ℚ) (rd : ℚ × ℚ) (y : Nat) :
    List (String × List Attr) → Nat → List Event
  | [], _ => []
  | (w, attrs) :: rest, off =>
    withAttrs attrs
      [Event.addstr (b.text_pos_y + y) (b.text_pos_x + off) w, Event.refresh]
    ++ [Event.sleep d (some rd)]
    ++ wordTraceRes b d rd y rest (off + w.length + 1)

theorem wordWordLoop_eq_res (b : DialogBox) (table : List (String × AttrVal))
    (ta : AttrVal) (nb : Nat) (d : ℚ) (rd : ℚ × ℚ) (y : Nat) :
    ∀ (words : List String) (off : Nat),
    wordWordLoop b table ta nb d rd y words off
      = (resolveAll table ta nb words).map
          (fun rs => wordTraceRes b d rd y (words.zip rs) off) := by
  intro words
  induction words with
  | nil => intro off; rfl
  | cons w ws ih =>
    intro off
    simp only [wordWordLoop, resolveAll, bind, Except.bind]
    cases hres : resolveWordAttr table ta nb w with
    | error e => rfl
    | ok attrs =>
      rw [ih (off + w.length + 1)]
      cases hall : resolveAll table ta nb ws with
      | error e => rfl
      | ok rs => rfl

theorem resolveAll_length (table : List (String × AttrVal)) (ta : AttrVal)
    (nb : Nat) :
    ∀ (words : List String) (rs : List (List Attr)),
    resolveAll table ta nb words = .ok rs → rs.length = words.length := by
  intro words
  induction words with
  | nil => intro rs h; cases h; rfl
  | cons w ws ih =>
    intro rs h
    simp only [resolveAll, bind, Except.bind] at h
    cases hres : resolveWordAttr table ta nb w with
    | error e => rw [hres] at h; cases h
    | ok attrs =>
      rw [hres] at h
      cases hall : resolveAll table ta nb ws with
      | error e => rw [hall] at h; cases h
      | ok rs' =>
        rw [hall] at h
        cases h
        simp [ih rs' hall]

theorem wordWordLoop_ok (b : DialogBox) (table : List (String × AttrVal))
    (ta : AttrVal) (nb : Nat) (d : ℚ) (rd : ℚ × ℚ) (y : Nat)
    (words : List String) (off : Nat) (es : List Event)
    (h : wordWordLoop b table ta nb d rd y words off = .ok es) :
    ∃ rs, resolveAll table ta nb words = .ok rs ∧ rs.length = words.length
      ∧ es = wordTraceRes b d rd y (words.zip rs) off := by
  rw [wordWordLoop_eq_res] at h
  cases hall : resolveAll table ta nb words with
  | error e => rw [hall] at h; cases h
  | ok rs =>
    rw [hall] at h
    refine ⟨rs, rfl, resolveAll_length table ta nb words rs hall, ?_⟩
    cases h
    rfl

theorem writesProj_wordTraceRes (b : DialogBox) (d : ℚ) (rd : ℚ × ℚ) (y : Nat)
    (pairs : List (String × List Attr)) (off : Nat) :
    writesProj (wordTraceRes b d rd y pairs off)
      = lineWordWrites b y (pairs.map Prod.fst) off := by
  induction pairs generalizing off with
  | nil => rfl
  | cons p rest ih =>
    obtain ⟨w, attrs⟩ := p
    simp only [wordTraceRes, List.map_cons, lineWordWrites]
    rw [writesProj_append, writesProj_append, writesProj_withAttrs, ih]
    rfl

theorem sleepsProj_wordTraceRes (b : DialogBox) (d : ℚ) (rd : ℚ × ℚ) (y : Nat)
    (pairs : List (String × List Attr)) (off : Nat) :
    sleepsProj (wordTraceRes b d rd y pairs off)
      = List.replicate pairs.length (d, some rd) := by
  induction pairs generalizing off with
  | nil => rfl
  | cons p rest ih =>
    obtain ⟨w, attrs⟩ := p
    simp only [wordTraceRes, List.length_cons, List.replicate_succ]
    rw [sleepsProj_append, sleepsProj_append, sleepsProj_withAttrs, ih]
    rfl

theorem countEvt_callback_wordTraceRes (b : DialogBox) (d : ℚ) (rd : ℚ × ℚ)
    (y : Nat) (pairs : List (String × List Attr)) (off : Nat) :
    countEvt isCallback (wordTraceRes b d rd y pairs off) = 0 := by
  induction pairs generalizing off with
  | nil => rfl
  | cons p rest ih =>
    obtain ⟨w, attrs⟩ := p
    simp only [wordTraceRes]
    rw [countEvt_append, countEvt_append]
    rw [show countEvt isCallback (withAttrs attrs
      [Event.addstr (b.text_pos_y + y) (b.text_pos_x + off) w, Event.refresh])
      = _ from congrArg List.length
        (filter_withAttrs isCallback (fun _ => rfl) (fun _ => rfl) attrs _)]
    rw [ih]
    rfl

theorem countEvt_getkey_wordTraceRes (b : DialogBox) (d : ℚ) (rd : ℚ × ℚ)
    (y : Nat) (pairs : List (String × List Attr)) (off : Nat) :
    countEvt isGetkey (wordTraceRes b d rd y pairs off) = 0 := by
  induction pairs generalizing off with
  | nil => rfl
  | cons p rest ih =>
    obtain ⟨w, attrs⟩ := p
    simp only [wordTraceRes]
    rw [countEvt_append, countEvt_append]
    rw [show countEvt isGetkey (withAttrs attrs
      [Event.addstr (b.text_pos_y + y) (b.text_pos_x + off) w, Event.refresh])
      = _ from congrArg List.length
        (filter_withAttrs isGetkey (fun _ => rfl) (fun _ => rfl) attrs _)]
    rw [ih]
    rfl

/-! ## Writes-and-confirms subsequence (for the page-ordering claim) -/

/-- Recognizer for surface writes (`addstr`/`addch`) and the confirm
gate. -/
def isWG : Event → Bool
  | .addstr _ _ _ => true
  | .addch _ _ _ => true
  | .getkey => true
  | _ => false

/-- The subsequence of a trace consisting of surface writes and confirm
waits. -/
def gwProj (es : List Event) : List Event :=
  es.filter isWG

/-- An expected `(row, col, text)` write as an `addstr` event. -/
def toAddstr (p : Int × Int × String) : Event :=
  Event.addstr p.1 p.2.1 p.2.2

/-- The single `addch` write of the end-of-page indicator, or nothing when
the glyph is empty. -/
def indicatorEvts (b : DialogBox) : List Event :=
  if b.end_indicator_char ≠ "" then
    [Event.addch b.end_indicator_pos_y b.end_indicator_pos_x b.end_indicator_char]
  else []

theorem gwProj_append (a c : List Event) :
    gwProj (a ++ c) = gwProj a ++ gwProj c :=
  List.filter_append a c

theorem gwProj_withAttrs (attrs : List Attr) (body : List Event) :
    gwProj (withAttrs attrs body) = gwProj body :=
  filter_withAttrs isWG (fun _ => rfl) (fun _ => rfl) attrs body

theorem gwProj_endIndicator (b : DialogBox) (attrs : List Attr) :
    gwProj (displayEndIndicator b attrs) = indicatorEvts b := by
  unfold displayEndIndicator indicatorEvts
  by_cases h : b.end_indicator_char ≠ ""
  · rw [if_pos h, if_pos h, gwProj_withAttrs]; rfl
  · rw [if_neg h, if_neg h]; rfl

theorem gwProj_charCharsLoop (b : DialogBox) (d : ℚ) (rd : ℚ × ℚ)
    (y off : Nat) (chars : List Char) (x : Nat) :
    gwProj (charCharsLoop b d rd y off chars x)
      = (charWrites b y off chars x).map toAddstr := by
  induction chars generalizing x with
  | nil => rfl
  | cons c cs ih =>
    simp only [charCharsLoop]
    rw [gwProj_append, ih]
    rfl

theorem gwProj_charWordLoop (b : DialogBox) (table : List (String × AttrVal))
    (ta : AttrVal) (nb : Nat) (d : ℚ) (rd : ℚ × ℚ) (y : Nat)
    (words : List String) (off : Nat) :
    gwProj (charWordLoop b table ta nb d rd y words off)
      = (lineCharWrites b y words off).map toAddstr := by
  induction words generalizing off with
  | nil => rfl
  | cons w ws ih =>
    simp only [charWordLoop, lineCharWrites, List.map_append]
    rw [gwProj_append, gwProj_withAttrs, gwProj_append, ih]
    rw [charRevealEvents, gwProj_charCharsLoop]
    rw [show gwProj [Event.sleep d none] = [] from rfl]
    simp

theorem gwProj_charLinesLoop (b : DialogBox) (table : List (String × AttrVal))
    (ta : AttrVal) (nb : Nat) (d : ℚ) (rd : ℚ × ℚ) (lines : List String)
    (y : Nat) :
    gwProj (charLinesLoop b table ta nb d rd lines y)
      = (pageCharWrites b lines y).map toAddstr := by
  induction lines generalizing y with
  | nil => rfl
  | cons line rest ih =>
    simp only [charLinesLoop, pageCharWrites, List.map_append]
    rw [gwProj_append, ih, gwProj_charWordLoop]

theorem gwProj_charPageEvents (b : DialogBox) (table : List (String × AttrVal))
    (ta : AttrVal) (nb : Nat) (d : ℚ) (rd : ℚ × ℚ) (page : List String) :
    gwProj (charPageEvents b table ta nb d rd page)
      = (pageCharWrites b page 0).map toAddstr ++ indicatorEvts b
        ++ [Event.getkey] := by
  unfold charPageEvents
  rw [gwProj_append, gwProj_append, gwProj_append]
  rw [gwProj_endIndicator, gwProj_charLinesLoop]
  rw [show gwProj [Event.clear, Event.frameBox] = [] from rfl,
    show gwProj [Event.getkey] = [Event.getkey] from rfl]
  simp

theorem gwProj_charByChar (b : DialogBox) (text : String) (nb : Nat)
    (ta : AttrVal) (table : List (String × AttrVal)) (flash : Bool)
    (d : ℚ) (rd : ℚ × ℚ) :
    gwProj (charByChar b text nb ta table flash d rd)
      = (paginate b text).flatMap (fun page =>
          (pageCharWrites b page 0).map toAddstr ++ indicatorEvts b
            ++ [Event.getkey]) := by
  unfold charByChar
  rw [gwProj_append, gwProj_append]
  rw [show gwProj [Event.frameBox] = [] from rfl]
  have hflash : gwProj (if flash then [Event.flash] else []) = [] := by
    cases flash <;> rfl
  rw [hflash]
  have hpages : ∀ pages : List (List String),
      gwProj (pages.flatMap (charPageEvents b table ta nb d rd))
        = pages.flatMap (fun page =>
            (pageCharWrites b page 0).map toAddstr ++ indicatorEvts b
              ++ [Event.getkey]) := by
    intro pages
    induction pages with
    | nil => rfl
    | cons page rest ih =>
      simp only [List.flatMap_cons]
      rw [gwProj_append, ih, gwProj_charPageEvents]
  rw [hpages]
  simp

theorem gwProj_wordTraceRes (b : DialogBox) (d : ℚ) (rd : ℚ × ℚ) (y : Nat)
    (pairs : List (String × List Attr)) (off : Nat) :
    gwProj (wordTraceRes b d rd y pairs off)
      = (lineWordWrites b y (pairs.map Prod.fst) off).map toAddstr := by
  induction pairs generalizing off with
  | nil => rfl
  | cons p rest ih =>
    obtain ⟨w, attrs⟩ := p
    simp only [wordTraceRes, List.map_cons, lineWordWrites]
    rw [gwProj_append, gwProj_append, gwProj_withAttrs, ih]
    rfl

/-- Expected writes of a page in WORD granularity, the line index counting
from `y`. -/
def pageWordWrites (b : DialogBox) (cut : String) : List String → Nat → List (Int × Int × String)
  | [], _ => []
  | line :: rest, y =>
    lineWordWrites b y (pySplitOn cut line) 0 ++ pageWordWrites b cut rest (y + 1)

theorem gwProj_wordLinesLoop_ok (b : DialogBox) (table : List (String × AttrVal))
    (ta : AttrVal) (nb : Nat) (cut : String) (d : ℚ) (rd : ℚ × ℚ) :
    ∀ (lines : List String) (y : Nat) (es : List Event),
    wordLinesLoop b table ta nb cut d rd lines y = .ok es →
    gwProj es = (pageWordWrites b cut lines y).map toAddstr := by
  intro lines
  induction lines with
  | nil =>
    intro y es h
    cases h
    rfl
  | cons line rest ih =>
    intro y es h
    simp only [wordLinesLoop, bind, Except.bind] at h
    cases hw : wordWordLoop b table ta nb d rd y (pySplitOn cut line) 0 with
    | error e => rw [hw] at h; cases h
    | ok esw =>
      rw [hw] at h
      cases hr : wordLinesLoop b table ta nb cut d rd rest (y + 1) with
      | error e => rw [hr] at h; cases h
      | ok more =>
        rw [hr] at h
        cases h
        obtain ⟨rs, _, hlen, hes⟩ :=
          wordWordLoop_ok b table ta nb d rd y (pySplitOn cut line) 0 esw hw
        subst hes
        rw [gwProj_append, gwProj_append, gwProj_wordTraceRes]
        rw [List.map_fst_zip _ rs (le_of_eq hlen.symm)]
        rw [show gwProj [Event.callback] = [] from rfl]
        simp only [pageWordWrites, List.map_append]
        rw [ih (y + 1) more hr]
        simp

theorem gwProj_wordPageEvents_ok (b : DialogBox) (table : List (String × AttrVal))
    (ta : AttrVal) (nb : Nat) (cut : String) (d : ℚ) (rd : ℚ × ℚ)
    (page : List String) (es : List Event)
    (h : wordPageEvents b table ta nb cut d rd page = .ok es) :
    gwProj es = (pageWordWrites b cut page 0).map toAddstr ++ indicatorEvts b
      ++ [Event.getkey] := by
  simp only [wordPageEvents, bind, Except.bind] at h
  cases hl : wordLinesLoop b table ta nb cut d rd page 0 with
  | error e => rw [hl] at h; cases h
  | ok body =>
    rw [hl] at h
    cases h
    rw [gwProj_append, gwProj_append, gwProj_append]
    rw [gwProj_endIndicator, gwProj_wordLinesLoop_ok b table ta nb cut d rd page 0 body hl]
    rfl

theorem gwProj_wordPagesLoop_ok (b : DialogBox) (table : List (String × AttrVal))
    (ta : AttrVal) (nb : Nat) (cut : String) (d : ℚ) (rd : ℚ × ℚ) :
    ∀ (pages : List (List String)) (es : List Event),
    wordPagesLoop b table ta nb cut d rd pages = .ok es →
    gwProj es = pages.flatMap (fun page =>
      (pageWordWrites b cut page 0).map toAddstr ++ indicatorEvts b
        ++ [Event.getkey]) := by
  intro pages
  induction pages with
  | nil =>
    intro es h
    cases h
    rfl
  | cons page rest ih =>
    intro es h
    simp only [wordPagesLoop, bind, Except.bind] at h
    cases hp : wordPageEvents b table ta nb cut d rd page with
    | error e => rw [hp] at h; cases h
    | ok esp =>
      rw [hp] at h
      cases hr : wordPagesLoop b table ta nb cut d rd rest with
      | error e => rw [hr] at h; cases h
      | ok more =>
        rw [hr] at h
        cases h
        simp only [List.flatMap_cons]
        rw [gwProj_append, ih more hr,
          gwProj_wordPageEvents_ok b table ta nb cut d rd page esp hp]

theorem gwProj_wordByWord_ok (b : DialogBox) (text : String) (nb : Nat)
    (cut : String) (ta : AttrVal) (table : List (String × AttrVal))
    (flash : Bool) (d : ℚ) (rd : ℚ × ℚ) (es : List Event)
    (h : wordByWord b text nb cut ta table flash d rd = .ok es) :
    gwProj es = (paginate b text).flatMap (fun page =>
      (pageWordWrites b cut page 0).map toAddstr ++ indicatorEvts b
        ++ [Event.getkey]) := by
  simp only [wordByWord, bind, Except.bind] at h
  cases hu : pyUnpack ta with
  | error e => rw [hu] at h; cases h
  | ok l =>
    rw [hu] at h
    cases hp : wordPagesLoop b table ta nb cut d rd (paginate b text) with
    | error e => rw [hp] at h; cases h
    | ok body =>
      rw [hp] at h
      cases h
      rw [gwProj_append, gwProj_append]
      rw [show gwProj [Event.frameBox] = [] from rfl]
      have hflash : gwProj (if flash then [Event.flash] else []) = [] := by
        cases flash <;> rfl
      rw [hflash,
        gwProj_wordPagesLoop_ok b table ta nb cut d rd (paginate b text) body hp]
      simp

/-! ## Sleep sequences and offset indexing -/

theorem sleepsProj_charCharsLoop (b : DialogBox) (d : ℚ) (rd : ℚ × ℚ)
    (y off : Nat) (chars : List Char) (x : Nat) :
    sleepsProj (charCharsLoop b d rd y off chars x)
      = chars.map (fun c =>
          ((if c ∈ b.downtime_chars then b.downtime_chars_delay else d),
            some rd)) := by
  induction chars generalizing x with
  | nil => rfl
  | cons c cs ih =>
    simp only [charCharsLoop, List.map_cons]
    rw [sleepsProj_append, ih]
    rfl

theorem sleepsProj_charWordLoop (b : DialogBox) (table : List (String × AttrVal))
    (ta : AttrVal) (nb : Nat) (d : ℚ) (rd : ℚ × ℚ) (y : Nat)
    (words : List String) (off : Nat) :
    sleepsProj (charWordLoop b table ta nb d rd y words off)
      = words.flatMap (fun w =>
          w.data.map (fun c =>
            ((if c ∈ b.downtime_chars then b.downtime_chars_delay else d),
              some rd))
          ++ [(d, none)]) := by
  induction words generalizing off with
  | nil => rfl
  | cons w ws ih =>
    simp only [charWordLoop, List.flatMap_cons]
    rw [sleepsProj_append, sleepsProj_withAttrs, sleepsProj_append, ih]
    rw [charRevealEvents, sleepsProj_charCharsLoop]
    rw [show sleepsProj [Event.sleep d none] = [(d, none)] from rfl]

theorem writesProj_charCharsLoop (b : DialogBox) (d : ℚ) (rd : ℚ × ℚ)
    (y off : Nat) (chars : List Char) (x : Nat) :
    writesProj (charCharsLoop b d rd y off chars x)
      = charWrites b y off chars x := by
  induction chars generalizing x with
  | nil => rfl
  | cons c cs ih =>
    simp only [charCharsLoop, charWrites]
    rw [writesProj_append, ih]
    rfl

theorem writesProj_charWordLoop (b : DialogBox) (table : List (String × AttrVal))
    (ta : AttrVal) (nb : Nat) (d : ℚ) (rd : ℚ × ℚ) (y : Nat)
    (words : List String) (off : Nat) :
    writesProj (charWordLoop b table ta nb d rd y words off)
      = lineCharWrites b y words off := by
  induction words generalizing off with
  | nil => rfl
  | cons w ws ih =>
    simp only [charWordLoop, lineCharWrites]
    rw [writesProj_append, writesProj_withAttrs, writesProj_append, ih]
    rw [charRevealEvents, writesProj_charCharsLoop]
    rw [show writesProj [Event.sleep d none] = [] from rfl]
    simp

theorem charWrites_length (b : DialogBox) (y off : Nat) (chars : List Char)
    (x : Nat) : (charWrites b y off chars x).length = chars.length := by
  induction chars generalizing x with
  | nil => rfl
  | cons c cs ih => simp only [charWrites, List.length_cons, ih]

theorem wordOffset_zero (words : List String) : wordOffset words 0 = 0 := rfl

theorem wordOffset_succ_cons (w : String) (ws : List String) (k : Nat) :
    wordOffset (w :: ws) (k + 1) = (w.length + 1) + wordOffset ws k := by
  simp [wordOffset, List.take_succ_cons]

theorem lineCharWrites_drop_take (b : DialogBox) (y : Nat) :
    ∀ (words : List String) (off k : Nat) (h : k < words.length),
    ((lineCharWrites b y words off).drop
        (((words.take k).map String.length).sum)).take
        (words.get ⟨k, h⟩).length
      = charWrites b y (off + wordOffset words k) (words.get ⟨k, h⟩).data 0 := by
  intro words
  induction words with
  | nil => intro off k h; cases h
  | cons w ws ih =>
    intro off k h
    match k with
    | 0 =>
      show ((charWrites b y off w.data 0
          ++ lineCharWrites b y ws (off + w.length + 1)).drop 0).take w.length
        = charWrites b y (off + wordOffset (w :: ws) 0) w.data 0
      rw [List.drop_zero, wordOffset_zero, Nat.add_zero]
      exact List.take_left' (charWrites_length b y off w.data 0)
    | k + 1 =>
      have h' : k < ws.length := Nat.lt_of_succ_lt_succ h
      show ((charWrites b y off w.data 0
          ++ lineCharWrites b y ws (off + w.length + 1)).drop
            ((((w :: ws).take (k + 1)).map String.length).sum)).take
            (ws.get ⟨k, h'⟩).length
        = charWrites b y (off + wordOffset (w :: ws) (k + 1)) (ws.get ⟨k, h'⟩).data 0
      have hdrop : (charWrites b y off w.data 0
            ++ lineCharWrites b y ws (off + w.length + 1)).drop
              ((((w :: ws).take (k + 1)).map String.length).sum)
          = (lineCharWrites b y ws (off + w.length + 1)).drop
              (((ws.take k).map String.length).sum) := by
        rw [List.take_succ_cons, List.map_cons, List.sum_cons]
        rw [show w.length + ((ws.take k).map String.length).sum
            = (charWrites b y off w.data 0).length
              + ((ws.take k).map String.length).sum from by
          rw [charWrites_length]
          rfl]
        exact List.drop_append _
      rw [hdrop, ih (off + w.length + 1) k h']
      congr 1
      rw [wordOffset_succ_cons]
      omega

theorem lineWordWrites_getElem (b : DialogBox) (y : Nat) :
    ∀ (words : List String) (off k : Nat) (h : k < words.length),
    (lineWordWrites b y words off)[k]?
      = some (b.text_pos_y + y, b.text_pos_x + (off + wordOffset words k : Nat),
          words.get ⟨k, h⟩) := by
  intro words
  induction words with
  | nil => intro off k h; cases h
  | cons w ws ih =>
    intro off k h
    match k with
    | 0 =>
      show ((b.text_pos_y + (y : Int), b.text_pos_x + (off : Int), w)
          :: lineWordWrites b y ws (off + w.length + 1))[0]? = _
      rw [List.getElem?_cons_zero, wordOffset_zero, Nat.add_zero]
      rfl
    | k + 1 =>
      have h' : k < ws.length := Nat.lt_of_succ_lt_succ h
      show ((b.text_pos_y + (y : Int), b.text_pos_x + (off : Int), w)
          :: lineWordWrites b y ws (off + w.length + 1))[k + 1]? = _
      rw [List.getElem?_cons_succ, ih (off + w.length + 1) k h']
      have harith : off + w.length + 1 + wordOffset ws k
          = off + wordOffset (w :: ws) (k + 1) := by
        rw [wordOffset_succ_cons]; omega
      rw [harith]
      rfl

/-! ## Scalar/tuple equivalence for `char_by_char` -/

/-- The override table with every value normalized: a bare attribute becomes
the one-element tuple containing it. -/
def normTable (table : List (String × AttrVal)) : List (String × AttrVal) :=
  table.map (fun p => (p.1, AttrVal.tuple p.2.toList))

theorem lookupTable_normTable (table : List (String × AttrVal)) (w : String) :
    lookupTable (normTable table) w
      = (lookupTable table w).map (fun v => AttrVal.tuple v.toList) := by
  induction table with
  | nil => rfl
  | cons p rest ih =>
    simp only [normTable, List.map_cons, lookupTable]
    by_cases h : p.1 = w
    · rw [if_pos h, if_pos h]; rfl
    · rw [if_neg h, if_neg h]
      exact ih

theorem resolveCharAttr_congr (table table' : List (String × AttrVal))
    (ta ta' : AttrVal) (nb : Nat)
    (htab : ∀ w, lookupTable table' w
      = (lookupTable table w).map (fun v => AttrVal.tuple v.toList))
    (hta : ta'.toList = ta.toList) (w : String) :
    resolveCharAttr table' ta' nb w = resolveCharAttr table ta nb w := by
  unfold resolveCharAttr
  rw [htab w]
  cases lookupTable table w with
  | none => simp [Option.map_none, hta]
  | some v => rfl

theorem charWordLoop_congr (b : DialogBox) (table table' : List (String × AttrVal))
    (ta ta' : AttrVal) (nb : Nat) (d : ℚ) (rd : ℚ × ℚ) (y : Nat)
    (hres : ∀ w, resolveCharAttr table' ta' nb w = resolveCharAttr table ta nb w) :
    ∀ (words : List String) (off : Nat),
    charWordLoop b table' ta' nb d rd y words off
      = charWordLoop b table ta nb d rd y words off := by
  intro words
  induction words with
  | nil => intro off; rfl
  | cons w ws ih =>
    intro off
    simp only [charWordLoop, hres w, ih]

theorem charLinesLoop_congr (b : DialogBox) (table table' : List (String × AttrVal))
    (ta ta' : AttrVal) (nb : Nat) (d : ℚ) (rd : ℚ × ℚ)
    (hres : ∀ w, resolveCharAttr table' ta' nb w = resolveCharAttr table ta nb w) :
    ∀ (lines : List String) (y : Nat),
    charLinesLoop b table' ta' nb d rd lines y
      = charLinesLoop b table ta nb d rd lines y := by
  intro lines
  induction lines with
  | nil => intro y; rfl
  | cons line rest ih =>
    intro y
    simp only [charLinesLoop, charWordLoop_congr b table table' ta ta' nb d rd _ hres, ih]

theorem charByChar_congr (b : DialogBox) (text : String) (nb : Nat)
    (table table' : List (String × AttrVal)) (ta ta' : AttrVal) (flash : Bool)
    (d : ℚ) (rd : ℚ × ℚ)
    (hres : ∀ w, resolveCharAttr table' ta' nb w = resolveCharAttr table ta nb w) :
    charByChar b text nb ta' table' flash d rd
      = charByChar b text nb ta table flash d rd := by
  unfold charByChar
  have hpages : ∀ pages : List (List String),
      pages.flatMap (charPageEvents b table' ta' nb d rd)
        = pages.flatMap (charPageEvents b table ta nb d rd) := by
    intro pages
    induction pages with
    | nil => rfl
    | cons page rest ih =>
      simp only [List.flatMap_cons, ih]
      unfold charPageEvents
      rw [charLinesLoop_congr b table table' ta ta' nb d rd hres]
  rw [hpages]

/-! ## Confirm-gate counting -/

theorem countEvt_getkey_charCharsLoop (b : DialogBox) (d : ℚ) (rd : ℚ × ℚ)
    (y off : Nat) (chars : List Char) (x : Nat) :
    countEvt isGetkey (charCharsLoop b d rd y off chars x) = 0 := by
  induction chars generalizing x with
  | nil => rfl
  | cons c cs ih =>
    simp only [charCharsLoop]
    rw [countEvt_append, ih]
    rfl

theorem countEvt_getkey_charWordLoop (b : DialogBox)
    (table : List (String × AttrVal)) (ta : AttrVal) (nb : Nat) (d : ℚ)
    (rd : ℚ × ℚ) (y : Nat) (words : List String) (off : Nat) :
    countEvt isGetkey (charWordLoop b table ta nb d rd y words off) = 0 := by
  induction words generalizing off with
  | nil => rfl
  | cons w ws ih =>
    simp only [charWordLoop]
    rw [countEvt_append, ih]
    rw [show countEvt isGetkey (withAttrs (resolveCharAttr table ta nb w)
        (charRevealEvents b d rd y off w ++ [Event.sleep d none]))
      = countEvt isGetkey (charRevealEvents b d rd y off w ++ [Event.sleep d none])
      from congrArg List.length
        (filter_withAttrs isGetkey (fun _ => rfl) (fun _ => rfl) _ _)]
    rw [countEvt_append, charRevealEvents, countEvt_getkey_charCharsLoop]
    rfl

theorem countEvt_getkey_charLinesLoop (b : DialogBox)
    (table : List (String × AttrVal)) (ta : AttrVal) (nb : Nat) (d : ℚ)
    (rd : ℚ × ℚ) (lines : List String) (y : Nat) :
    countEvt isGetkey (charLinesLoop b table ta nb d rd lines y) = 0 := by
  induction lines generalizing y with
  | nil => rfl
  | cons line rest ih =>
    simp only [charLinesLoop]
    rw [countEvt_append, ih, countEvt_getkey_charWordLoop]

theorem countEvt_getkey_charPageEvents (b : DialogBox)
    (table : List (String × AttrVal)) (ta : AttrVal) (nb : Nat) (d : ℚ)
    (rd : ℚ × ℚ) (page : List String) :
    countEvt isGetkey (charPageEvents b table ta nb d rd page) = 1 := by
  unfold charPageEvents
  rw [countEvt_append, countEvt_append, countEvt_append]
  rw [countEvt_getkey_charLinesLoop, countEvt_getkey_endIndicator]
  rfl

theorem countEvt_getkey_charByChar (b : DialogBox) (text : String) (nb : Nat)
    (ta : AttrVal) (table : List (String × AttrVal)) (flash : Bool) (d : ℚ)
    (rd : ℚ × ℚ) :
    countEvt isGetkey (charByChar b text nb ta table flash d rd)
      = (paginate b text).length := by
  unfold charByChar
  rw [countEvt_append, countEvt_append]
  have h2 : countEvt isGetkey (if flash then [Event.flash] else []) = 0 := by
    cases flash <;> rfl
  rw [h2, show countEvt isGetkey [Event.frameBox] = 0 from rfl]
  have hpages : ∀ pages : List (List String),
      countEvt isGetkey (pages.flatMap (charPageEvents b table ta nb d rd))
        = pages.length := by
    intro pages
    induction pages with
    | nil => rfl
    | cons page rest ih =>
      simp only [List.flatMap_cons, List.length_cons]
      rw [countEvt_append, ih, countEvt_getkey_charPageEvents]
      omega
  rw [hpages]
  omega

theorem resolveCharAttr_ta (table : List (String × AttrVal)) (ta ta' : AttrVal)
    (nb : Nat) (w : String) (hta : ta'.toList = ta.toList) :
    resolveCharAttr table ta' nb w = resolveCharAttr table ta nb w := by
  unfold resolveCharAttr
  cases lookupTable table w with
  | none => rw [hta]
  | some v => rfl

/-! ## Concrete instances -/

/-- A concrete dialog box for the concrete evaluations below (an untitled
40×6 box at the origin, default downtime characters and delays). -/
def box0 : DialogBox :=
  { pos_x := 0, pos_y := 0, height := 40, width := 6, title := "",
    text_pos_x := 2, text_pos_y := 2, nb_char_max_line := 20, nb_lines_max := 4,
    downtime_chars := [',', '.', ':', ';', '!', '?'],
    downtime_chars_delay := 3/5, end_indicator_char := "►" }

/-! ## The claims -/

/-- C1: the claim says a WORD-granularity reveal fires the per-unit callback
once per word of a line.  The code fires it once per **line**: on the
one-line, two-word text `"ab cd"`, `word_by_word` produces exactly one
callback event, and the word loop itself (`wordTraceRes`) never emits a
callback at all — `callback(*cargs)` sits in the line loop (line 386),
outside the word loop, contradicting the method's own docstring
("Callable called after writing a word"). -/
theorem word_callback_fires_per_line :
    (wordByWord box0 "ab cd" 0 " " (AttrVal.tuple []) [] false (3/20) (0, 0)).map
      (countEvt isCallback) = .ok 1
    ∧ ∀ (b : DialogBox) (d : ℚ) (rd : ℚ × ℚ) (y : Nat)
        (pairs : List (String × List Attr)) (off : Nat),
        countEvt isCallback (wordTraceRes b d rd y pairs off) = 0 :=
  ⟨rfl, countEvt_callback_wordTraceRes⟩

/-- C2: in `char_by_char` a bare attribute is indeed normalized — the trace
with `text_attr` a scalar equals the trace with the one-element tuple, and an
override table behaves like its normalized copy.  In `word_by_word` the claim
fails: a scalar `text_attr` raises `TypeError` at line 353 before any word is
written, and a scalar override value raises at `TextAttributes(win, *attr)`
because lines 367–369 normalize `text_attr` instead of `attr`, while the
tuple forms succeed. -/
theorem scalar_attr_normalization :
    (∀ (b : DialogBox) (text : String) (nb : Nat) (a : Attr)
        (table : List (String × AttrVal)) (flash : Bool) (d : ℚ) (rd : ℚ × ℚ),
        charByChar b text nb (AttrVal.scalar a) table flash d rd
          = charByChar b text nb (AttrVal.tuple [a]) table flash d rd)
    ∧ (∀ (b : DialogBox) (text : String) (nb : Nat) (ta : AttrVal)
        (table : List (String × AttrVal)) (flash : Bool) (d : ℚ) (rd : ℚ × ℚ),
        charByChar b text nb ta (normTable table) flash d rd
          = charByChar b text nb ta table flash d rd)
    ∧ wordByWord box0 "hi" 0 " " (AttrVal.scalar A_BOLD) [] false (3/20) (0, 0)
        = .error "TypeError: Value after * must be an iterable, not int"
    ∧ wordByWord box0 "hi" 0 " " (AttrVal.tuple []) [("hi", AttrVal.scalar A_BOLD)]
        false (3/20) (0, 0)
        = .error "TypeError: Value after * must be an iterable, not int"
    ∧ (wordByWord box0 "hi" 0 " " (AttrVal.tuple [A_BOLD]) [] false (3/20) (0, 0)).isOk
        = true
    ∧ (wordByWord box0 "hi" 0 " " (AttrVal.tuple []) [("hi", AttrVal.tuple [A_BOLD])]
        false (3/20) (0, 0)).isOk = true := by
  refine ⟨?_, ?_, rfl, rfl, rfl, rfl⟩
  · intro b text nb a table flash d rd
    exact charByChar_congr b text nb table table (AttrVal.tuple [a])
      (AttrVal.scalar a) flash d rd
      (fun w => resolveCharAttr_ta table (AttrVal.tuple [a]) (AttrVal.scalar a) nb w rfl)
  · intro b text nb ta table flash d rd
    exact charByChar_congr b text nb table (normTable table) ta ta flash d rd
      (fun w => resolveCharAttr_congr table (normTable table) ta ta nb
        (lookupTable_normTable table) rfl w)

/-- C3: for empty input text the pagination pipeline yields exactly one
page, the empty page, and the CHAR-granularity display performs exactly one
confirm cycle (one `getkey` wait). -/
theorem empty_text_single_empty_page (b : DialogBox) (nb : Nat) (ta : AttrVal)
    (table : List (String × AttrVal)) (flash : Bool) (d : ℚ) (rd : ℚ × ℚ) :
    paginate b "" = [[]]
    ∧ countEvt isGetkey (charByChar b "" nb ta table flash d rd) = 1 := by
  refine ⟨rfl, ?_⟩
  rw [countEvt_getkey_charByChar]
  rfl

/-- C4: in CHAR granularity the writes-and-callbacks subsequence of the
whole trace is exactly one `addstr` followed by one callback per expected
character, in page/line/word order, and the characters written are exactly
the non-whitespace characters of the displayed (wrapped) text in order:
the callback fires exactly once per non-space character, after that
character is written, left-to-right and top-to-bottom. -/
theorem char_callback_once_per_nonspace_char (b : DialogBox) (text : String)
    (nb : Nat) (ta : AttrVal) (table : List (String × AttrVal)) (flash : Bool)
    (d : ℚ) (rd : ℚ × ℚ) :
    wcProj (charByChar b text nb ta table flash d rd)
      = (expectedCharWrites b (paginate b text)).flatMap (fun p => [some p, none])
    ∧ (expectedCharWrites b (paginate b text)).map (fun p => p.2.2)
      = (paginate b text).flatMap (fun page => page.flatMap (fun line =>
          (line.data.filter (fun c => ¬ c.isWhitespace)).map String.singleton)) :=
  ⟨wcProj_charByChar b text nb ta table flash d rd,
    map_text_expectedCharWrites b (paginate b text)⟩

/-- C5: if a unit is a key of the per-word override table, the resolved
style is the table's value verbatim — independent of the default text
attributes and of the colour index; for a unit not in the table, the
resolved style is the colour selected by the colour index followed by the
default attributes. -/
theorem override_style_wins_verbatim (table : List (String × AttrVal))
    (ta ta' : AttrVal) (nb nb' : Nat) (w : String) :
    (∀ v, lookupTable table w = some v →
        resolveCharAttr table ta nb w = v.toList
        ∧ resolveCharAttr table ta nb w = resolveCharAttr table ta' nb' w)
    ∧ (lookupTable table w = none →
        resolveCharAttr table ta nb w = Attr.colorPair nb :: ta.toList) := by
  refine ⟨fun v hv => ?_, fun hn => ?_⟩
  · unfold resolveCharAttr
    rw [hv]
    exact ⟨rfl, rfl⟩
  · unfold resolveCharAttr
    rw [hn]

/-- Witness for C5 at a concrete input: the override for `"test"` resolves
verbatim to `[A_BOLD]` regardless of the defaults, and an absent key
resolves to the colour pair followed by the defaults. -/
theorem override_style_wins_verbatim_witness :
    resolveCharAttr [("test", AttrVal.tuple [A_BOLD])] (AttrVal.tuple [A_BLINK]) 3 "test"
      = [A_BOLD]
    ∧ resolveCharAttr [] (AttrVal.tuple [A_BLINK]) 3 "test"
      = [Attr.colorPair 3, A_BLINK] :=
  ⟨((override_style_wins_verbatim [("test", AttrVal.tuple [A_BOLD])]
      (AttrVal.tuple [A_BLINK]) (AttrVal.tuple []) 3 0 "test").1
      (AttrVal.tuple [A_BOLD]) rfl).1,
    (override_style_wins_verbatim [] (AttrVal.tuple [A_BLINK]) (AttrVal.tuple []) 3 0
      "test").2 rfl⟩

/-- C6: in both granularities the `k`-th word (0-based) of a line is written
starting at column `text_pos_x + Σ_{i<k} (len(word_i) + 1)`: in CHAR
granularity, the block of writes following the characters of the earlier
words is that word's characters at columns advancing from the offset; in
WORD granularity, the `k`-th `addstr` of a successful line is the whole word
at that column. -/
theorem word_offset_bookkeeping (b : DialogBox) (table : List (String × AttrVal))
    (ta : AttrVal) (nb : Nat) (d : ℚ) (rd : ℚ × ℚ) (y : Nat)
    (words : List String) (k : Nat) (w : String) (h : words[k]? = some w) :
    ((writesProj (charWordLoop b table ta nb d rd y words 0)).drop
        (((words.take k).map String.length).sum)).take w.length
      = charWrites b y (wordOffset words k) w.data 0
    ∧ ∀ es, wordWordLoop b table ta nb d rd y words 0 = .ok es →
        (writesProj es)[k]?
          = some (b.text_pos_y + y, b.text_pos_x + (wordOffset words k : Nat), w) := by
  obtain ⟨hlt, hw⟩ := List.getElem?_eq_some.1 h
  have hget : words.get ⟨k, hlt⟩ = w := by
    rw [List.get_eq_getElem]
    exact hw
  constructor
  · rw [writesProj_charWordLoop]
    have hmain := lineCharWrites_drop_take b y words 0 k hlt
    rw [Nat.zero_add, hget] at hmain
    exact hmain
  · intro es hok
    obtain ⟨rs, _, hlen, hes⟩ :=
      wordWordLoop_ok b table ta nb d rd y words 0 es hok
    subst hes
    rw [writesProj_wordTraceRes, List.map_fst_zip _ rs (le_of_eq hlen.symm)]
    have hmain := lineWordWrites_getElem b y words 0 k hlt
    rw [Nat.zero_add, hget] at hmain
    exact hmain

/-- Witness for C6 at a concrete input: on the two-word line
`["ab", "cd"]`, word 1 starts at column `text_pos_x + (2 + 1) = 5` in both
granularities. -/
theorem word_offset_bookkeeping_witness :
    ((writesProj (charWordLoop box0 [] (AttrVal.tuple []) 0 (1/25) (0, 0) 0
        ["ab", "cd"] 0)).drop
        (((["ab", "cd"].take 1).map String.length).sum)).take "cd".length
      = charWrites box0 0 (wordOffset ["ab", "cd"] 1) "cd".data 0
    ∧ (writesProj [Event.attrOn (Attr.colorPair 0), Event.addstr 2 2 "ab",
        Event.refresh, Event.attrOff (Attr.colorPair 0),
        Event.sleep (3/20) (some (0, 0)), Event.attrOn (Attr.colorPair 0),
        Event.addstr 2 5 "cd", Event.refresh, Event.attrOff (Attr.colorPair 0),
        Event.sleep (3/20) (some (0, 0))])[1]?
      = some (box0.text_pos_y + (0 : Nat),
          box0.text_pos_x + (wordOffset ["ab", "cd"] 1 : Nat), "cd") := by
  have H1 := word_offset_bookkeeping box0 [] (AttrVal.tuple []) 0 (1/25) (0, 0) 0
    ["ab", "cd"] 1 "cd" rfl
  have H2 := word_offset_bookkeeping box0 [] (AttrVal.tuple []) 0 (3/20) (0, 0) 0
    ["ab", "cd"] 1 "cd" rfl
  exact ⟨H1.1, H2.2 _ rfl⟩

/-- C7: in CHAR granularity each character sleeps the downtime delay when
the character is a downtime character and the base delay otherwise, each
with the jitter range, and each word is followed by one flat base delay
without jitter; in WORD granularity every word sleeps exactly the base delay
with jitter — the downtime delay never occurs. -/
theorem delay_structure (b : DialogBox) (table : List (String × AttrVal))
    (ta : AttrVal) (nb : Nat) (d : ℚ) (rd : ℚ × ℚ) (y : Nat)
    (words : List String) (off : Nat) :
    sleepsProj (charWordLoop b table ta nb d rd y words off)
      = words.flatMap (fun w =>
          w.data.map (fun c =>
            ((if c ∈ b.downtime_chars then b.downtime_chars_delay else d),
              some rd))
          ++ [(d, none)])
    ∧ ∀ es, wordWordLoop b table ta nb d rd y words off = .ok es →
        sleepsProj es = List.replicate words.length (d, some rd) := by
  refine ⟨sleepsProj_charWordLoop b table ta nb d rd y words off, ?_⟩
  intro es hok
  obtain ⟨rs, _, hlen, hes⟩ :=
    wordWordLoop_ok b table ta nb d rd y words off es hok
  subst hes
  rw [sleepsProj_wordTraceRes]
  congr 1
  rw [List.length_zip, hlen]
  exact Nat.min_self _

/-- Witness for C7 at a concrete input: the word `"hi,"` sleeps base, base,
downtime (for the comma), then one flat base delay; in WORD granularity one
single base-plus-jitter sleep occurs. -/
theorem delay_structure_witness :
    sleepsProj (charWordLoop box0 [] (AttrVal.tuple []) 0 (1/25) (0, 0) 0 ["hi,"] 0)
      = [((1 : ℚ)/25, some ((0 : ℚ), (0 : ℚ))), ((1 : ℚ)/25, some ((0 : ℚ), (0 : ℚ))),
          ((3 : ℚ)/5, some ((0 : ℚ), (0 : ℚ))), ((1 : ℚ)/25, none)]
    ∧ sleepsProj [Event.attrOn (Attr.colorPair 0), Event.addstr 2 2 "hi,",
        Event.refresh, Event.attrOff (Attr.colorPair 0),
        Event.sleep (3/20) (some (0, 0))]
      = List.replicate 1 ((3 : ℚ)/20, some ((0 : ℚ), (0 : ℚ))) := by
  have H1 := delay_structure box0 [] (AttrVal.tuple []) 0 (1/25) (0, 0) 0 ["hi,"] 0
  have H2 := delay_structure box0 [] (AttrVal.tuple []) 0 (3/20) (0, 0) 0 ["hi,"] 0
  exact ⟨H1.1, H2.2 _ rfl⟩

/-- C8: in both granularities the subsequence of surface writes and confirm
waits of the whole display is, page after page, that page's unit writes,
then the end-of-page indicator write, then the confirm wait — so the
indicator is drawn after the page's last line and before the confirm, and
no unit of a later page is written before the earlier page's confirm
completes; and every page display starts by clearing and re-framing the
surface. -/
theorem page_cycle_order (b : DialogBox) (text : String) (nb : Nat)
    (ta : AttrVal) (table : List (String × AttrVal)) (flash : Bool)
    (d : ℚ) (rd : ℚ × ℚ) (cut : String) :
    gwProj (charByChar b text nb ta table flash d rd)
      = (paginate b text).flatMap (fun page =>
          (pageCharWrites b page 0).map toAddstr ++ indicatorEvts b
            ++ [Event.getkey])
    ∧ (∀ page, ∃ rest, charPageEvents b table ta nb d rd page
        = Event.clear :: Event.frameBox :: rest)
    ∧ (∀ es, wordByWord b text nb cut ta table flash d rd = .ok es →
        gwProj es = (paginate b text).flatMap (fun page =>
          (pageWordWrites b cut page 0).map toAddstr ++ indicatorEvts b
            ++ [Event.getkey]))
    ∧ (∀ page es, wordPageEvents b table ta nb cut d rd page = .ok es →
        ∃ rest, es = Event.clear :: Event.frameBox :: rest) := by
  refine ⟨gwProj_charByChar b text nb ta table flash d rd,
    fun page => ⟨_, rfl⟩,
    fun es hok => gwProj_wordByWord_ok b text nb cut ta table flash d rd es hok,
    fun page es hok => ?_⟩
  simp only [wordPageEvents, bind, Except.bind] at hok
  cases hl : wordLinesLoop b table ta nb cut d rd page 0 with
  | error e => rw [hl] at hok; cases hok
  | ok body =>
    rw [hl] at hok
    cases hok
    exact ⟨_, rfl⟩

/-- Witness for C8 at a concrete input: the successful `word_by_word`
display of `"hi"` has writes-and-confirms subsequence equal to the single
page's word write, the indicator write, then the confirm wait. -/
theorem page_cycle_order_witness :
    gwProj [Event.frameBox, Event.clear, Event.frameBox,
      Event.attrOn (Attr.colorPair 0), Event.addstr 2 2 "hi", Event.refresh,
      Event.attrOff (Attr.colorPair 0), Event.sleep (3/20) (some (0, 0)),
      Event.callback, Event.attrOn A_BOLD, Event.attrOn A_BLINK,
      Event.addch 5 38 "►", Event.attrOff A_BOLD, Event.attrOff A_BLINK,
      Event.getkey]
      = (paginate box0 "hi").flatMap (fun page =>
          (pageWordWrites box0 " " page 0).map toAddstr ++ indicatorEvts box0
            ++ [Event.getkey]) :=
  (page_cycle_order box0 "hi" 0 (AttrVal.tuple []) [] false (3/20) (0, 0) " ").2.2.1
    _ rfl

/-- C9: exiting a `DialogBox` used as a context manager is a no-op for every
exit, normal (`None` arguments) or exceptional: the box is unchanged, no
event is written to the surface, and the exception (if any) is not
suppressed. -/
theorem context_exit_noop (b : DialogBox) (ty val tb : Option String) :
    DialogBox.exit b ty val tb = (b, [], false) := rfl

/-- C10: when the end-indicator glyph is the empty string, the end-of-page
indicator display writes nothing and applies no text attributes, and the
page still performs its one confirm wait, as the last event of the page. -/
theorem empty_indicator_writes_nothing (b : DialogBox) (attrs : List Attr)
    (table : List (String × AttrVal)) (ta : AttrVal) (nb : Nat) (d : ℚ)
    (rd : ℚ × ℚ) (page : List String) (h : b.end_indicator_char = "") :
    displayEndIndicator b attrs = []
    ∧ countEvt isGetkey (charPageEvents b table ta nb d rd page) = 1
    ∧ (charPageEvents b table ta nb d rd page).getLast? = some Event.getkey := by
  refine ⟨?_, countEvt_getkey_charPageEvents b table ta nb d rd page, ?_⟩
  · unfold displayEndIndicator
    rw [if_neg (by simp [h])]
  · unfold charPageEvents
    exact List.getLast?_concat _

/-- Witness for C10 at a concrete input: `box0` with the empty indicator
glyph. -/
theorem empty_indicator_writes_nothing_witness :
    displayEndIndicator { box0 with end_indicator_char := "" } [A_BOLD, A_BLINK] = []
    ∧ countEvt isGetkey (charPageEvents { box0 with end_indicator_char := "" }
        [] (AttrVal.tuple []) 0 (1/25) (0, 0) ["hi"]) = 1
    ∧ (charPageEvents { box0 with end_indicator_char := "" }
        [] (AttrVal.tuple []) 0 (1/25) (0, 0) ["hi"]).getLast?
      = some Event.getkey :=
  empty_indicator_writes_nothing { box0 with end_indicator_char := "" }
    [A_BOLD, A_BLINK] [] (AttrVal.tuple []) 0 (1/25) (0, 0) ["hi"] rfl
